import Mathlib

set_option autoImplicit false

/-!
Shallow embedding of the NeoFi event-management API (src/main.py, src/models.py,
src/schemas.py): the data model, the event CRUD endpoints, versioning
(create / update / rollback), sharing, changelog and diff, together with proofs
of the specified properties.  Datetimes are modelled as natural numbers: only
equality of stored values matters to the verified properties.  Each request
handler is modelled as a function from the persistent store to an outcome; a
handler that commits also returns the store it leaves behind, and an error path
that raises before its commit returns the store unchanged (the session's
uncommitted pending writes are discarded when the request ends).
-/

inductive Role
  | owner
  | editor
  | viewer
deriving DecidableEq

inductive RecurrencePattern
  | daily
  | weekly
  | monthly
  | yearly
  | custom
deriving DecidableEq

/-- The eight editable event fields, shared by the events table and the
event_versions table (models.Event / models.EventVersion). -/
structure EventFields where
  title : String
  description : String
  start_time : Nat
  end_time : Nat
  location : Option String
  is_recurring : Bool
  recurrence_pattern : Option RecurrencePattern
  recurrence_end_date : Option Nat
deriving DecidableEq

/-- A row of the events table (models.Event); the audit timestamps
created_at / updated_at are not read by any verified operation and are not
modelled. -/
structure Event where
  id : Nat
  fields : EventFields
  owner_id : Nat
deriving DecidableEq

/-- A row of the event_versions table (models.EventVersion); its surrogate id
and created_at are not read by any verified operation and are not modelled. -/
structure EventVersion where
  event_id : Nat
  fields : EventFields
  modified_by_id : Nat
  version_number : Nat
deriving DecidableEq

/-- A row of the event_permissions association table
(models.event_permissions). -/
structure PermGrant where
  event_id : Nat
  user_id : Nat
  role : Role
  created_at : Nat
deriving DecidableEq

/-- A row of the users table (models.User); only the columns the verified
operations read. -/
structure User where
  id : Nat
  username : String
deriving DecidableEq

/-- The persistent store: the four relations, plus the autoincrement counter
backing events.id. -/
structure DB where
  users : List User
  events : List Event
  versions : List EventVersion
  perms : List PermGrant
  next_id : Nat
deriving DecidableEq

/-- The HTTP error outcomes raised by the handlers (detail strings are not
modelled); serverError stands for an uncaught storage-layer failure (500). -/
inductive Err
  | notFound
  | forbidden
  | serverError
deriving DecidableEq

/-- schemas.EventUpdate: every field optional.  An outer none is an unset
field (pydantic dict(exclude_unset=True) drops it); an outer some is a value
supplied by the client. -/
structure EventUpdate where
  title : Option String := none
  description : Option String := none
  start_time : Option Nat := none
  end_time : Option Nat := none
  location : Option (Option String) := none
  is_recurring : Option Bool := none
  recurrence_pattern : Option (Option RecurrencePattern) := none
  recurrence_end_date : Option (Option Nat) := none
deriving DecidableEq

/-- schemas.PermissionCreate. -/
structure PermissionCreate where
  user_id : Nat
  role : Role
deriving DecidableEq

/-- db.query(models.Event).filter(models.Event.id == event_id).first() -/
def findEvent (s : DB) (eid : Nat) : Option Event :=
  s.events.find? (fun e => e.id == eid)

/-- db.query(models.User).filter(models.User.id == uid).first() -/
def findUser (s : DB) (uid : Nat) : Option User :=
  s.users.find? (fun u => u.id == uid)

/-- All version snapshots of one event, in insertion order. -/
def versionsFor (vs : List EventVersion) (eid : Nat) : List EventVersion :=
  vs.filter (fun v => v.event_id == eid)

/-- The version numbers recorded for one event, in insertion order. -/
def versionNumbersFor (vs : List EventVersion) (eid : Nat) : List Nat :=
  (versionsFor vs eid).map (fun v => v.version_number)

/-- One step of order_by(version_number.desc()).first(): keep the row with the
strictly larger version number. -/
def maxStep (acc : Option EventVersion) (v : EventVersion) : Option EventVersion :=
  match acc with
  | none => some v
  | some w => if w.version_number < v.version_number then some v else some w

/-- db.query(models.EventVersion).filter(event_id == eid)
      .order_by(version_number.desc()).first() -/
def latestVersion (vs : List EventVersion) (eid : Nat) : Option EventVersion :=
  (versionsFor vs eid).foldl maxStep none

/-- db.query(models.EventVersion).filter(event_id == eid,
      version_number == vid).first() -/
def findVersion (vs : List EventVersion) (eid vid : Nat) : Option EventVersion :=
  vs.find? (fun v => v.event_id == eid && v.version_number == vid)

/-- The setattr loop of update_event over event_update.dict(exclude_unset=True):
each supplied field overwrites the stored one, each unset field is kept. -/
def applyUpdate (f : EventFields) (u : EventUpdate) : EventFields where
  title := u.title.getD f.title
  description := u.description.getD f.description
  start_time := u.start_time.getD f.start_time
  end_time := u.end_time.getD f.end_time
  location := u.location.getD f.location
  is_recurring := u.is_recurring.getD f.is_recurring
  recurrence_pattern := u.recurrence_pattern.getD f.recurrence_pattern
  recurrence_end_date := u.recurrence_end_date.getD f.recurrence_end_date

/-- POST /api/events (create_event in src/main.py).  The handler commits the
new Event row first and the version-1 snapshot in a second, separate commit;
the snapshot_write_fails flag injects a storage-layer failure at that second
write, after the first commit has already persisted the event. -/
def create_event (s : DB) (caller : Nat) (f : EventFields)
    (snapshot_write_fails : Bool) : Except Err Event × DB :=
  let e : Event := ⟨s.next_id, f, caller⟩
  let s1 : DB := { s with events := s.events ++ [e], next_id := s.next_id + 1 }
  if snapshot_write_fails then (.error .serverError, s1)
  else (.ok e, { s1 with versions := s1.versions ++ [⟨e.id, f, caller, 1⟩] })

/-- PUT /api/events/event_id (update_event in src/main.py). -/
def update_event (s : DB) (caller eid : Nat) (u : EventUpdate) :
    Except Err Event × DB :=
  match findEvent s eid with
  | none => (.error .notFound, s)
  | some e =>
    if e.owner_id != caller then (.error .forbidden, s)
    else
      let f1 := applyUpdate e.fields u
      let n := match latestVersion s.versions eid with
        | some cv => cv.version_number + 1
        | none => 1
      (.ok { e with fields := f1 },
        { s with
          events := s.events.map (fun ev =>
            if ev.id == eid then { ev with fields := f1 } else ev),
          versions := s.versions ++ [⟨eid, f1, caller, n⟩] })

/-- DELETE /api/events/event_id (delete_event in src/main.py).  Deleting the
Event row removes its rows of the association table; the ORM nulls the
event_id of its orphaned snapshots, which makes them invisible to every
event_id-keyed query, modelled here by dropping them. -/
def delete_event (s : DB) (caller eid : Nat) : Except Err Unit × DB :=
  match findEvent s eid with
  | none => (.error .notFound, s)
  | some e =>
    if e.owner_id != caller then (.error .forbidden, s)
    else (.ok (),
      { s with
        events := s.events.filter (fun ev => ev.id != eid),
        versions := s.versions.filter (fun v => v.event_id != eid),
        perms := s.perms.filter (fun g => g.event_id != eid) })

/-- One iteration body of the share_event loop, after the grantee user was
found: replace the role of an existing (event, user) grant, or insert a new
grant with the current timestamp. -/
def grantStep (eid now : Nat) (perms : List PermGrant) (p : PermissionCreate) :
    List PermGrant :=
  if perms.any (fun g => g.event_id == eid && g.user_id == p.user_id) then
    perms.map (fun g =>
      if g.event_id == eid && g.user_id == p.user_id then { g with role := p.role }
      else g)
  else perms ++ [⟨eid, p.user_id, p.role, now⟩]

/-- The share_event loop: validate each grantee user, then update-or-insert
its grant in the session's pending view; a missing user raises 404 and the
pending writes are never committed. -/
def applyGrants (eid now : Nat) (users : List User)
    (ps : List PermissionCreate) (perms : List PermGrant) :
    Except Err (List PermGrant) :=
  match ps with
  | [] => .ok perms
  | p :: rest =>
    if (users.find? (fun u => u.id == p.user_id)).isSome then
      applyGrants eid now users rest (grantStep eid now perms p)
    else .error .notFound

/-- POST /api/events/event_id/share (share_event in src/main.py); now is the
request timestamp used for the created_at default of inserted grants. -/
def share_event (s : DB) (caller eid : Nat) (ps : List PermissionCreate)
    (now : Nat) : Except Err (List PermGrant) × DB :=
  match findEvent s eid with
  | none => (.error .notFound, s)
  | some e =>
    if e.owner_id != caller then (.error .forbidden, s)
    else
      match applyGrants eid now s.users ps s.perms with
      | .error err => (.error err, s)
      | .ok newPerms =>
        (.ok (newPerms.filter (fun g => g.event_id == eid)),
          { s with perms := newPerms })

/-- GET /api/events/event_id (get_event in src/main.py): the event together
with its permission grants; read-only. -/
def get_event (s : DB) (caller eid : Nat) : Except Err (Event × List PermGrant) :=
  match findEvent s eid with
  | none => .error .notFound
  | some e =>
    if e.owner_id != caller then .error .forbidden
    else .ok (e, s.perms.filter (fun g => g.event_id == eid))

/-- GET /api/events/event_id/history/version_id (get_event_version in
src/main.py); read-only. -/
def get_event_version (s : DB) (caller eid vid : Nat) : Except Err EventVersion :=
  match findEvent s eid with
  | none => .error .notFound
  | some e =>
    if e.owner_id != caller then .error .forbidden
    else
      match findVersion s.versions eid vid with
      | none => .error .notFound
      | some v => .ok v

/-- POST /api/events/event_id/rollback/version_id (rollback_event in
src/main.py).  The handler overwrites the event's editable fields with the
target snapshot's fields, then records a new snapshot numbered one above the
current maximum; the code reads current_version.version_number with no
None-guard, so an empty ledger would crash the request uncommitted (500). -/
def rollback_event (s : DB) (caller eid vid : Nat) : Except Err Event × DB :=
  match findEvent s eid with
  | none => (.error .notFound, s)
  | some e =>
    if e.owner_id != caller then (.error .forbidden, s)
    else
      match findVersion s.versions eid vid with
      | none => (.error .notFound, s)
      | some v =>
        match latestVersion s.versions eid with
        | none => (.error .serverError, s)
        | some cv =>
          (.ok { e with fields := v.fields },
            { s with
              events := s.events.map (fun ev =>
                if ev.id == eid then { ev with fields := v.fields } else ev),
              versions := s.versions ++ [⟨eid, v.fields, caller, cv.version_number + 1⟩] })

/-- One rendered changelog entry. -/
structure ChangelogEntry where
  version : Nat
  modified_by : String
  changes : EventFields
deriving DecidableEq

/-- GET /api/events/event_id/changelog (get_event_changelog in src/main.py):
all snapshots ordered by ascending version_number, each annotated with the
modifying user's name, or the sentinel when that user record is gone. -/
def get_event_changelog (s : DB) (caller eid : Nat) :
    Except Err (List ChangelogEntry) :=
  match findEvent s eid with
  | none => .error .notFound
  | some e =>
    if e.owner_id != caller then .error .forbidden
    else
      .ok (((versionsFor s.versions eid).mergeSort
          (fun a b => a.version_number ≤ b.version_number)).map (fun v =>
        ⟨v.version_number,
          match findUser s v.modified_by_id with
          | some u => u.username
          | none => "Unknown",
          v.fields⟩))

/-- The fixed list of tracked diff fields, in source order. -/
inductive FieldName
  | title
  | description
  | start_time
  | end_time
  | location
  | is_recurring
  | recurrence_pattern
  | recurrence_end_date
deriving DecidableEq

/-- A field value as compared by the diff loop (one constructor per column
type, so values of distinct columns compare the way distinct Python types
do). -/
inductive FieldValue
  | str : String → FieldValue
  | optStr : Option String → FieldValue
  | time : Nat → FieldValue
  | optTime : Option Nat → FieldValue
  | flag : Bool → FieldValue
  | optPat : Option RecurrencePattern → FieldValue
deriving DecidableEq

/-- getattr(version, field) for the eight tracked fields. -/
def fieldVal (f : EventFields) : FieldName → FieldValue
  | .title => .str f.title
  | .description => .str f.description
  | .start_time => .time f.start_time
  | .end_time => .time f.end_time
  | .location => .optStr f.location
  | .is_recurring => .flag f.is_recurring
  | .recurrence_pattern => .optPat f.recurrence_pattern
  | .recurrence_end_date => .optTime f.recurrence_end_date

/-- The field list iterated by get_event_diff, in its source order. -/
def trackedFields : List FieldName :=
  [.title, .description, .start_time, .end_time, .location,
   .is_recurring, .recurrence_pattern, .recurrence_end_date]

/-- One emitted difference. -/
structure DiffEntry where
  field : FieldName
  old_value : FieldValue
  new_value : FieldValue
deriving DecidableEq

/-- The diff loop of get_event_diff: walk the fixed field list and append an
entry whenever the two snapshots' values differ. -/
def diffList (f1 f2 : EventFields) : List DiffEntry :=
  trackedFields.foldl (fun acc f =>
    if fieldVal f1 f ≠ fieldVal f2 f then acc ++ [⟨f, fieldVal f1 f, fieldVal f2 f⟩]
    else acc) []

/-- The response of get_event_diff. -/
structure DiffResult where
  version1 : Nat
  version2 : Nat
  differences : List DiffEntry
deriving DecidableEq

/-- GET /api/events/event_id/diff/version_id1/version_id2 (get_event_diff in
src/main.py); read-only. -/
def get_event_diff (s : DB) (caller eid vid1 vid2 : Nat) : Except Err DiffResult :=
  match findEvent s eid with
  | none => .error .notFound
  | some e =>
    if e.owner_id != caller then .error .forbidden
    else
      match findVersion s.versions eid vid1, findVersion s.versions eid vid2 with
      | some v1, some v2 => .ok ⟨vid1, vid2, diffList v1.fields v2.fields⟩
      | _, _ => .error .notFound

/-- Did a request succeed? -/
def isOk {α : Type} (r : Except Err α) : Bool :=
  match r with
  | .ok _ => true
  | .error _ => false

/-- The version-writing operations a single event's history is built from. -/
inductive ApiOp
  | create (caller : Nat) (f : EventFields)
  | update (caller eid : Nat) (u : EventUpdate)
  | rollback (caller eid vid : Nat)

/-- Run one operation against the store (create with its snapshot write
succeeding, as in a failure-free run). -/
def applyOp (s : DB) (op : ApiOp) : DB :=
  match op with
  | .create caller f => (create_event s caller f false).2
  | .update caller eid u => (update_event s caller eid u).2
  | .rollback caller eid vid => (rollback_event s caller eid vid).2

/-- Run a sequence of operations. -/
def applyOps : List ApiOp → DB → DB
  | [], s => s
  | op :: rest, s => applyOps rest (applyOp s op)

/-- Does this operation, run against this store, successfully apply to the
event with id eid?  A create applies to the id it assigns; an update or
rollback applies to its target event when the request succeeds. -/
def opTouches (s : DB) (op : ApiOp) (eid : Nat) : Bool :=
  match op with
  | .create _ _ => s.next_id == eid
  | .update caller eid1 u => eid1 == eid && isOk (update_event s caller eid1 u).1
  | .rollback caller eid1 vid => eid1 == eid && isOk (rollback_event s caller eid1 vid).1

/-- How many operations of the sequence successfully apply to event eid. -/
def opsOn : List ApiOp → DB → Nat → Nat
  | [], _, _ => 0
  | op :: rest, s, eid =>
    (if opTouches s op eid then 1 else 0) + opsOn rest (applyOp s op) eid

/-- The store of a freshly initialised deployment: empty tables,
autoincrement counter at 1. -/
def initDB : DB := ⟨[], [], [], [], 1⟩

/-! ### Lemmas about the version-ledger queries -/

theorem foldl_maxStep_spec (L : List EventVersion) (w : EventVersion) :
    ∃ b, L.foldl maxStep (some w) = some b ∧ (b = w ∨ b ∈ L) ∧
      w.version_number ≤ b.version_number ∧
      ∀ x ∈ L, x.version_number ≤ b.version_number := by
  induction L generalizing w with
  | nil => exact ⟨w, rfl, Or.inl rfl, le_refl _, by simp⟩
  | cons v rest ih =>
    rw [List.foldl_cons]
    by_cases h : w.version_number < v.version_number
    · rw [show maxStep (some w) v = some v by simp [maxStep, h]]
      obtain ⟨b, hb, hmem, hle, hall⟩ := ih v
      refine ⟨b, hb, ?_, le_trans (le_of_lt h) hle, ?_⟩
      · rcases hmem with rfl | hm
        · exact Or.inr (List.mem_cons_self _ _)
        · exact Or.inr (List.mem_cons_of_mem _ hm)
      · intro x hx
        rcases List.mem_cons.mp hx with rfl | hm
        · exact hle
        · exact hall x hm
    · rw [show maxStep (some w) v = some w by simp [maxStep, h]]
      obtain ⟨b, hb, hmem, hle, hall⟩ := ih w
      refine ⟨b, hb, ?_, hle, ?_⟩
      · rcases hmem with rfl | hm
        · exact Or.inl rfl
        · exact Or.inr (List.mem_cons_of_mem _ hm)
      · intro x hx
        rcases List.mem_cons.mp hx with rfl | hm
        · exact le_trans (Nat.le_of_not_lt h) hle
        · exact hall x hm

theorem latestVersion_spec (vs : List EventVersion) (eid : Nat)
    (h : versionsFor vs eid ≠ []) :
    ∃ b, latestVersion vs eid = some b ∧ b ∈ versionsFor vs eid ∧
      ∀ x ∈ versionsFor vs eid, x.version_number ≤ b.version_number := by
  unfold latestVersion
  cases hL : versionsFor vs eid with
  | nil => exact absurd hL h
  | cons w rest =>
    rw [List.foldl_cons, show maxStep none w = some w from rfl]
    obtain ⟨b, hb, hmem, hle, hall⟩ := foldl_maxStep_spec rest w
    refine ⟨b, hb, ?_, ?_⟩
    · rcases hmem with rfl | hm
      · exact List.mem_cons_self _ _
      · exact List.mem_cons_of_mem _ hm
    · intro x hx
      rcases List.mem_cons.mp hx with rfl | hm
      · exact hle
      · exact hall x hm

theorem latestVersion_none_iff (vs : List EventVersion) (eid : Nat) :
    latestVersion vs eid = none ↔ versionsFor vs eid = [] := by
  constructor
  · intro h
    by_contra hne
    obtain ⟨b, hb, -, -⟩ := latestVersion_spec vs eid hne
    rw [h] at hb
    exact Option.noConfusion hb
  · intro h
    unfold latestVersion
    rw [h]
    rfl

theorem versionsFor_append_of_eq (vs : List EventVersion) (v : EventVersion)
    (eid : Nat) (h : v.event_id = eid) :
    versionsFor (vs ++ [v]) eid = versionsFor vs eid ++ [v] := by
  unfold versionsFor
  rw [List.filter_append]
  simp [h]

theorem versionsFor_append_of_ne (vs : List EventVersion) (v : EventVersion)
    (eid : Nat) (h : v.event_id ≠ eid) :
    versionsFor (vs ++ [v]) eid = versionsFor vs eid := by
  unfold versionsFor
  rw [List.filter_append]
  simp [h]

theorem latestVersion_append_of_eq (vs : List EventVersion) (v : EventVersion)
    (eid : Nat) (h : v.event_id = eid) :
    latestVersion (vs ++ [v]) eid = maxStep (latestVersion vs eid) v := by
  unfold latestVersion
  rw [versionsFor_append_of_eq vs v eid h, List.foldl_append]
  rfl

theorem latestVersion_append_of_ne (vs : List EventVersion) (v : EventVersion)
    (eid : Nat) (h : v.event_id ≠ eid) :
    latestVersion (vs ++ [v]) eid = latestVersion vs eid := by
  unfold latestVersion
  rw [versionsFor_append_of_ne vs v eid h]

theorem versionNumbersFor_append_of_eq (vs : List EventVersion)
    (v : EventVersion) (eid : Nat) (h : v.event_id = eid) :
    versionNumbersFor (vs ++ [v]) eid =
      versionNumbersFor vs eid ++ [v.version_number] := by
  unfold versionNumbersFor
  rw [versionsFor_append_of_eq vs v eid h, List.map_append]
  rfl

theorem versionNumbersFor_append_of_ne (vs : List EventVersion)
    (v : EventVersion) (eid : Nat) (h : v.event_id ≠ eid) :
    versionNumbersFor (vs ++ [v]) eid = versionNumbersFor vs eid := by
  unfold versionNumbersFor
  rw [versionsFor_append_of_ne vs v eid h]

theorem findEvent_some (s : DB) (eid : Nat) (e : Event)
    (h : findEvent s eid = some e) : e ∈ s.events ∧ e.id = eid := by
  unfold findEvent at h
  refine ⟨List.mem_of_find?_eq_some h, ?_⟩
  have hp := List.find?_some h
  simpa using hp

theorem findVersion_some (vs : List EventVersion) (eid vid : Nat)
    (v : EventVersion) (h : findVersion vs eid vid = some v) :
    v ∈ versionsFor vs eid ∧ v.event_id = eid ∧ v.version_number = vid := by
  unfold findVersion at h
  have hmem := List.mem_of_find?_eq_some h
  have hp := List.find?_some h
  simp only [Bool.and_eq_true, beq_iff_eq] at hp
  refine ⟨?_, hp.1, hp.2⟩
  unfold versionsFor
  rw [List.mem_filter]
  exact ⟨hmem, by simp [hp.1]⟩

/-! ### The reachable-store invariant -/

/-- Invariant of every store reachable by the version-writing operations:
event ids are unique and below the autoincrement counter, every snapshot
belongs to an already-allocated id, each event's recorded version numbers are
exactly 1..N in insertion order, and each event's current fields equal its
latest snapshot's fields. -/
structure DBInv (s : DB) : Prop where
  events_lt : ∀ e ∈ s.events, e.id < s.next_id
  events_nodup : (s.events.map Event.id).Nodup
  vers_lt : ∀ v ∈ s.versions, v.event_id < s.next_id
  ledger : ∀ eid, versionNumbersFor s.versions eid =
    List.range' 1 (versionNumbersFor s.versions eid).length
  latest_fields : ∀ e ∈ s.events, ∃ v, latestVersion s.versions e.id = some v ∧
    v.fields = e.fields

theorem inv_initDB : DBInv initDB := by
  constructor <;> simp [initDB, versionNumbersFor, versionsFor]

theorem versionsFor_eq_nil_of_lt (vs : List EventVersion) (k : Nat)
    (h : ∀ v ∈ vs, v.event_id < k) : versionsFor vs k = [] := by
  unfold versionsFor
  rw [List.filter_eq_nil_iff]
  intro v hv
  simp only [beq_iff_eq]
  exact Nat.ne_of_lt (h v hv)

theorem latest_number (s : DB) (hs : DBInv s) (eid : Nat) (b : EventVersion)
    (hb : latestVersion s.versions eid = some b) :
    b.version_number = (versionNumbersFor s.versions eid).length := by
  have hne : versionsFor s.versions eid ≠ [] := by
    intro h
    rw [(latestVersion_none_iff s.versions eid).mpr h] at hb
    exact Option.noConfusion hb
  obtain ⟨b2, hb2, hmem, hall⟩ := latestVersion_spec s.versions eid hne
  rw [hb] at hb2
  obtain rfl : b = b2 := Option.some.inj hb2
  have hnum_mem : b.version_number ∈ versionNumbersFor s.versions eid :=
    List.mem_map_of_mem _ hmem
  have hupper : b.version_number < 1 + (versionNumbersFor s.versions eid).length := by
    have := hs.ledger eid
    rw [this] at hnum_mem
    exact (List.mem_range'_1.mp hnum_mem).2
  have hpos : 0 < (versionNumbersFor s.versions eid).length := by
    unfold versionNumbersFor
    rw [List.length_map]
    exact List.length_pos.mpr hne
  have hlower : (versionNumbersFor s.versions eid).length ≤ b.version_number := by
    have hmemn : (versionNumbersFor s.versions eid).length ∈
        versionNumbersFor s.versions eid := by
      have h1 : (versionNumbersFor s.versions eid).length ∈
          List.range' 1 (versionNumbersFor s.versions eid).length :=
        List.mem_range'_1.mpr ⟨hpos, by omega⟩
      rw [← hs.ledger eid] at h1
      exact h1
    obtain ⟨x, hx, hxnum⟩ := List.mem_map.mp hmemn
    rw [← hxnum]
    exact hall x hx
  omega

theorem range'_one_concat (n : Nat) :
    List.range' 1 (n + 1) = List.range' 1 n ++ [n + 1] := by
  rw [List.range'_concat]
  simp [Nat.add_comm]

theorem ledger_append (s : DB) (hs : DBInv s) (v : EventVersion)
    (hn : v.version_number = (versionNumbersFor s.versions v.event_id).length + 1)
    (eid : Nat) :
    versionNumbersFor (s.versions ++ [v]) eid =
      List.range' 1 (versionNumbersFor (s.versions ++ [v]) eid).length := by
  by_cases h : v.event_id = eid
  · subst h
    rw [versionNumbersFor_append_of_eq _ _ _ rfl]
    simp only [List.length_append, List.length_singleton]
    rw [hn, range'_one_concat, ← hs.ledger v.event_id]
  · rw [versionNumbersFor_append_of_ne _ _ _ h]
    exact hs.ledger eid

theorem latestVersion_append_max (s : DB) (hs : DBInv s) (v : EventVersion)
    (hn : v.version_number = (versionNumbersFor s.versions v.event_id).length + 1) :
    latestVersion (s.versions ++ [v]) v.event_id = some v := by
  rw [latestVersion_append_of_eq _ _ _ rfl]
  cases hlv : latestVersion s.versions v.event_id with
  | none => rfl
  | some cv =>
    have hcv := latest_number s hs v.event_id cv hlv
    simp [maxStep, hcv, hn]

theorem update_new_number (s : DB) (hs : DBInv s) (eid : Nat) :
    (match latestVersion s.versions eid with
      | some cv => cv.version_number + 1
      | none => 1) = (versionNumbersFor s.versions eid).length + 1 := by
  cases hlv : latestVersion s.versions eid with
  | none =>
    have h0 : versionsFor s.versions eid = [] := (latestVersion_none_iff _ _).mp hlv
    simp [versionNumbersFor, h0]
  | some cv =>
    simp [latest_number s hs eid cv hlv]

/-! ### Invariant preservation -/

theorem create_event_false_eq (s : DB) (caller : Nat) (f : EventFields) :
    create_event s caller f false =
      (.ok ⟨s.next_id, f, caller⟩,
        { s with events := s.events ++ [⟨s.next_id, f, caller⟩],
                 versions := s.versions ++ [⟨s.next_id, f, caller, 1⟩],
                 next_id := s.next_id + 1 }) := rfl

theorem inv_create (s : DB) (caller : Nat) (f : EventFields) (hs : DBInv s) :
    DBInv (create_event s caller f false).2 ∧
    ∀ k, (versionNumbersFor (create_event s caller f false).2.versions k).length =
      (versionNumbersFor s.versions k).length +
        (if s.next_id == k then 1 else 0) := by
  have hred : (create_event s caller f false).2 =
      { s with events := s.events ++ [⟨s.next_id, f, caller⟩],
               versions := s.versions ++ [⟨s.next_id, f, caller, 1⟩],
               next_id := s.next_id + 1 } := rfl
  rw [hred]
  have hvnil : versionsFor s.versions s.next_id = [] :=
    versionsFor_eq_nil_of_lt _ _ hs.vers_lt
  have hnum : (⟨s.next_id, f, caller, 1⟩ : EventVersion).version_number =
      (versionNumbersFor s.versions
        (⟨s.next_id, f, caller, 1⟩ : EventVersion).event_id).length + 1 := by
    show 1 = (versionNumbersFor s.versions s.next_id).length + 1
    simp [versionNumbersFor, hvnil]
  constructor
  · constructor
    · intro e he
      rcases List.mem_append.mp he with hm | hm
      · exact Nat.lt_succ_of_lt (hs.events_lt e hm)
      · simp only [List.mem_singleton] at hm
        subst hm
        exact Nat.lt_succ_self _
    · rw [List.map_append]
      rw [List.nodup_append]
      refine ⟨hs.events_nodup, List.nodup_singleton _, ?_⟩
      intro a ha hb
      simp only [List.map_cons, List.map_nil, List.mem_singleton] at hb
      subst hb
      obtain ⟨e, he, hid⟩ := List.mem_map.mp ha
      exact absurd hid (Nat.ne_of_lt (hs.events_lt e he))
    · intro v hv
      rcases List.mem_append.mp hv with hm | hm
      · exact Nat.lt_succ_of_lt (hs.vers_lt v hm)
      · simp only [List.mem_singleton] at hm
        subst hm
        exact Nat.lt_succ_self _
    · exact ledger_append s hs _ hnum
    · intro e he
      rcases List.mem_append.mp he with hm | hm
      · obtain ⟨v, hv, hf⟩ := hs.latest_fields e hm
        refine ⟨v, ?_, hf⟩
        rw [latestVersion_append_of_ne _ _ _
          (Nat.ne_of_lt (hs.events_lt e hm)).symm]
        exact hv
      · simp only [List.mem_singleton] at hm
        subst hm
        exact ⟨⟨s.next_id, f, caller, 1⟩, latestVersion_append_max s hs _ hnum, rfl⟩
  · intro k
    by_cases h : s.next_id = k
    · subst h
      rw [versionNumbersFor_append_of_eq _ _ _ rfl]
      simp
    · rw [versionNumbersFor_append_of_ne _ _ _ h]
      simp [h]

theorem updatedEvents_id (f1 : EventFields) (eid : Nat) (ev : Event) :
    (if ev.id == eid then { ev with fields := f1 } else ev).id = ev.id := by
  by_cases h : ev.id == eid <;> simp [h]

theorem update_event_notFound_eq (s : DB) (caller eid : Nat) (u : EventUpdate)
    (hfe : findEvent s eid = none) :
    update_event s caller eid u = (.error .notFound, s) := by
  simp [update_event, hfe]

theorem update_event_forbidden_eq (s : DB) (caller eid : Nat) (u : EventUpdate)
    (e : Event) (hfe : findEvent s eid = some e) (howner : e.owner_id ≠ caller) :
    update_event s caller eid u = (.error .forbidden, s) := by
  simp [update_event, hfe, howner]

theorem update_event_success_eq (s : DB) (caller eid : Nat) (u : EventUpdate)
    (e : Event) (hfe : findEvent s eid = some e) (howner : e.owner_id = caller) :
    update_event s caller eid u =
      (.ok { e with fields := applyUpdate e.fields u },
        { s with
          events := s.events.map (fun ev =>
            if ev.id == eid then { ev with fields := applyUpdate e.fields u } else ev),
          versions := s.versions ++
            [⟨eid, applyUpdate e.fields u, caller,
              (match latestVersion s.versions eid with
                | some cv => cv.version_number + 1
                | none => 1)⟩] }) := by
  subst howner
  simp [update_event, hfe]

theorem inv_update (s : DB) (caller eid : Nat) (u : EventUpdate) (hs : DBInv s) :
    DBInv (update_event s caller eid u).2 ∧
    ∀ k, (versionNumbersFor (update_event s caller eid u).2.versions k).length =
      (versionNumbersFor s.versions k).length +
        (if eid == k && isOk (update_event s caller eid u).1 then 1 else 0) := by
  cases hfe : findEvent s eid with
  | none =>
    rw [update_event_notFound_eq s caller eid u hfe]
    exact ⟨hs, by intro k; simp [isOk]⟩
  | some e =>
    by_cases howner : e.owner_id = caller
    · rw [update_event_success_eq s caller eid u e hfe howner]
      obtain ⟨hemem, heid⟩ := findEvent_some s eid e hfe
      have hnum : (⟨eid, applyUpdate e.fields u, caller,
          (match latestVersion s.versions eid with
            | some cv => cv.version_number + 1
            | none => 1)⟩ : EventVersion).version_number =
          (versionNumbersFor s.versions
            (⟨eid, applyUpdate e.fields u, caller,
              (match latestVersion s.versions eid with
                | some cv => cv.version_number + 1
                | none => 1)⟩ : EventVersion).event_id).length + 1 :=
        update_new_number s hs eid
      constructor
      · constructor
        · intro e2 he2
          obtain ⟨ev, hev, hde⟩ := List.mem_map.mp he2
          rw [← hde, updatedEvents_id]
          exact hs.events_lt ev hev
        · rw [List.map_map]
          have : (Event.id ∘ fun ev =>
              if ev.id == eid then { ev with fields := applyUpdate e.fields u }
              else ev) = Event.id := by
            funext ev
            exact updatedEvents_id _ _ _
          rw [this]
          exact hs.events_nodup
        · intro v hv
          rcases List.mem_append.mp hv with hm | hm
          · exact hs.vers_lt v hm
          · simp only [List.mem_singleton] at hm
            subst hm
            show eid < s.next_id
            rw [← heid]
            exact hs.events_lt e hemem
        · exact ledger_append s hs _ hnum
        · intro e2 he2
          obtain ⟨ev, hev, hde⟩ := List.mem_map.mp he2
          by_cases hid : ev.id = eid
          · refine ⟨⟨eid, applyUpdate e.fields u, caller,
              (match latestVersion s.versions eid with
                | some cv => cv.version_number + 1
                | none => 1)⟩, ?_, ?_⟩
            · have hmax := latestVersion_append_max s hs _ hnum
              rw [← hde, updatedEvents_id, hid]
              exact hmax
            · rw [← hde]
              simp [hid]
          · obtain ⟨v, hv, hf⟩ := hs.latest_fields ev hev
            refine ⟨v, ?_, ?_⟩
            · rw [← hde, updatedEvents_id]
              rw [latestVersion_append_of_ne _ _ _ (fun hc => hid hc.symm)]
              exact hv
            · rw [← hde]
              simp [hid, hf]
      · intro k
        by_cases hk : eid = k
        · subst hk
          rw [versionNumbersFor_append_of_eq _ _ _ rfl]
          simp [isOk]
        · rw [versionNumbersFor_append_of_ne _ _ _ hk]
          simp [hk]
    · rw [update_event_forbidden_eq s caller eid u e hfe howner]
      exact ⟨hs, by intro k; simp [isOk]⟩

theorem rollback_event_notFound_eq (s : DB) (caller eid vid : Nat)
    (hfe : findEvent s eid = none) :
    rollback_event s caller eid vid = (.error .notFound, s) := by
  simp [rollback_event, hfe]

theorem rollback_event_forbidden_eq (s : DB) (caller eid vid : Nat) (e : Event)
    (hfe : findEvent s eid = some e) (howner : e.owner_id ≠ caller) :
    rollback_event s caller eid vid = (.error .forbidden, s) := by
  simp [rollback_event, hfe, howner]

theorem rollback_event_noVersion_eq (s : DB) (caller eid vid : Nat) (e : Event)
    (hfe : findEvent s eid = some e) (howner : e.owner_id = caller)
    (hfv : findVersion s.versions eid vid = none) :
    rollback_event s caller eid vid = (.error .notFound, s) := by
  subst howner
  simp [rollback_event, hfe, hfv]

theorem rollback_event_success_eq (s : DB) (caller eid vid : Nat) (e : Event)
    (v cv : EventVersion) (hfe : findEvent s eid = some e)
    (howner : e.owner_id = caller)
    (hfv : findVersion s.versions eid vid = some v)
    (hlv : latestVersion s.versions eid = some cv) :
    rollback_event s caller eid vid =
      (.ok { e with fields := v.fields },
        { s with
          events := s.events.map (fun ev =>
            if ev.id == eid then { ev with fields := v.fields } else ev),
          versions := s.versions ++
            [⟨eid, v.fields, caller, cv.version_number + 1⟩] }) := by
  subst howner
  simp [rollback_event, hfe, hfv, hlv]

theorem inv_rollback (s : DB) (caller eid vid : Nat) (hs : DBInv s) :
    DBInv (rollback_event s caller eid vid).2 ∧
    ∀ k, (versionNumbersFor (rollback_event s caller eid vid).2.versions k).length =
      (versionNumbersFor s.versions k).length +
        (if eid == k && isOk (rollback_event s caller eid vid).1 then 1 else 0) := by
  cases hfe : findEvent s eid with
  | none =>
    rw [rollback_event_notFound_eq s caller eid vid hfe]
    exact ⟨hs, by intro k; simp [isOk]⟩
  | some e =>
    by_cases howner : e.owner_id = caller
    · cases hfv : findVersion s.versions eid vid with
      | none =>
        rw [rollback_event_noVersion_eq s caller eid vid e hfe howner hfv]
        exact ⟨hs, by intro k; simp [isOk]⟩
      | some v =>
        cases hlv : latestVersion s.versions eid with
        | none =>
          have : rollback_event s caller eid vid = (.error .serverError, s) := by
            subst howner
            simp [rollback_event, hfe, hfv, hlv]
          rw [this]
          exact ⟨hs, by intro k; simp [isOk]⟩
        | some cv =>
          rw [rollback_event_success_eq s caller eid vid e v cv hfe howner hfv hlv]
          obtain ⟨hemem, heid⟩ := findEvent_some s eid e hfe
          have hnum : (⟨eid, v.fields, caller, cv.version_number + 1⟩ :
              EventVersion).version_number =
              (versionNumbersFor s.versions
                (⟨eid, v.fields, caller, cv.version_number + 1⟩ :
                  EventVersion).event_id).length + 1 := by
            show cv.version_number + 1 = (versionNumbersFor s.versions eid).length + 1
            rw [latest_number s hs eid cv hlv]
          constructor
          · constructor
            · intro e2 he2
              obtain ⟨ev, hev, hde⟩ := List.mem_map.mp he2
              rw [← hde, updatedEvents_id]
              exact hs.events_lt ev hev
            · rw [List.map_map]
              have : (Event.id ∘ fun ev =>
                  if ev.id == eid then { ev with fields := v.fields }
                  else ev) = Event.id := by
                funext ev
                exact updatedEvents_id _ _ _
              rw [this]
              exact hs.events_nodup
            · intro w hw
              rcases List.mem_append.mp hw with hm | hm
              · exact hs.vers_lt w hm
              · simp only [List.mem_singleton] at hm
                subst hm
                show eid < s.next_id
                rw [← heid]
                exact hs.events_lt e hemem
            · exact ledger_append s hs _ hnum
            · intro e2 he2
              obtain ⟨ev, hev, hde⟩ := List.mem_map.mp he2
              by_cases hid : ev.id = eid
              · refine ⟨⟨eid, v.fields, caller, cv.version_number + 1⟩, ?_, ?_⟩
                · have hmax := latestVersion_append_max s hs _ hnum
                  rw [← hde, updatedEvents_id, hid]
                  exact hmax
                · rw [← hde]
                  simp [hid]
              · obtain ⟨w, hw, hf⟩ := hs.latest_fields ev hev
                refine ⟨w, ?_, ?_⟩
                · rw [← hde, updatedEvents_id]
                  rw [latestVersion_append_of_ne _ _ _ (fun hc => hid hc.symm)]
                  exact hw
                · rw [← hde]
                  simp [hid, hf]
          · intro k
            by_cases hk : eid = k
            · subst hk
              rw [versionNumbersFor_append_of_eq _ _ _ rfl]
              simp [isOk]
            · rw [versionNumbersFor_append_of_ne _ _ _ hk]
              simp [hk]
    · rw [rollback_event_forbidden_eq s caller eid vid e hfe howner]
      exact ⟨hs, by intro k; simp [isOk]⟩

theorem inv_applyOp (s : DB) (op : ApiOp) (hs : DBInv s) :
    DBInv (applyOp s op) ∧
    ∀ k, (versionNumbersFor (applyOp s op).versions k).length =
      (versionNumbersFor s.versions k).length +
        (if opTouches s op k then 1 else 0) := by
  cases op with
  | create caller f => exact inv_create s caller f hs
  | update caller eid u => exact inv_update s caller eid u hs
  | rollback caller eid vid => exact inv_rollback s caller eid vid hs

theorem inv_applyOps (ops : List ApiOp) (s : DB) (hs : DBInv s) :
    DBInv (applyOps ops s) ∧
    ∀ k, (versionNumbersFor (applyOps ops s).versions k).length =
      (versionNumbersFor s.versions k).length + opsOn ops s k := by
  induction ops generalizing s with
  | nil => exact ⟨hs, fun k => by simp [applyOps, opsOn]⟩
  | cons op rest ih =>
    obtain ⟨h1, h2⟩ := inv_applyOp s op hs
    obtain ⟨h3, h4⟩ := ih (applyOp s op) h1
    refine ⟨h3, fun k => ?_⟩
    show (versionNumbersFor (applyOps rest (applyOp s op)).versions k).length =
      (versionNumbersFor s.versions k).length +
        ((if opTouches s op k then 1 else 0) + opsOn rest (applyOp s op) k)
    rw [h4 k, h2 k]
    omega

/-- Claim C1: starting from a fresh deployment, after any sequence of create,
update and rollback operations, the version numbers recorded in the ledger for
any event id form exactly the sequence 1..N, with no gaps and no duplicates,
where N is the number of those operations successfully applied to that event
(create writes version 1; each update and rollback writes one new version
numbered one greater than the current maximum). -/
theorem claim_C1_ledger_exact_range (ops : List ApiOp) (eid : Nat) :
    versionNumbersFor (applyOps ops initDB).versions eid =
      List.range' 1 (opsOn ops initDB eid) := by
  obtain ⟨hinv, hlen⟩ := inv_applyOps ops initDB inv_initDB
  have h := hinv.ledger eid
  rw [hlen eid] at h
  simpa [initDB, versionNumbersFor, versionsFor] using h

/-! ### The authorization guard and the single-call contracts -/

theorem findEvent_mapUpdated (s : DB) (eid : Nat) (f1 : EventFields) (e : Event)
    (hfe : findEvent s eid = some e) :
    (s.events.map (fun ev =>
        if ev.id == eid then { ev with fields := f1 } else ev)).find?
      (fun x => x.id == eid) = some { e with fields := f1 } := by
  rw [List.find?_map]
  have hcong : ((fun (x : Event) => x.id == eid) ∘ fun ev =>
      if ev.id == eid then { ev with fields := f1 } else ev) =
      (fun (ev : Event) => ev.id == eid) := by
    funext ev
    simp only [Function.comp_apply, updatedEvents_id]
  rw [hcong]
  unfold findEvent at hfe
  rw [hfe]
  have heid := (List.find?_some hfe)
  simp only [beq_iff_eq] at heid
  simp [Option.map_some, heid]

/-- Claim C2: rolling an event back to an existing version appends one new
snapshot carrying exactly that version's editable fields, numbered strictly
above every previously recorded version number for the event; afterwards the
latest snapshot is that new one, fetching it by its number returns it, and no
existing version record is modified or removed. -/
theorem claim_C2_rollback_roundtrip (s : DB) (caller eid vid : Nat) (e : Event)
    (v : EventVersion) (hfe : findEvent s eid = some e)
    (howner : e.owner_id = caller)
    (hfv : findVersion s.versions eid vid = some v) :
    ∃ s2 v2, rollback_event s caller eid vid =
        (.ok { e with fields := v.fields }, s2) ∧
      s2.versions = s.versions ++ [v2] ∧
      v2.fields = v.fields ∧
      latestVersion s2.versions eid = some v2 ∧
      get_event_version s2 caller eid v2.version_number = .ok v2 ∧
      ∀ w ∈ versionsFor s.versions eid, w.version_number < v2.version_number := by
  obtain ⟨hvmem, hveid, hvnum⟩ := findVersion_some s.versions eid vid v hfv
  have hne : versionsFor s.versions eid ≠ [] := by
    intro h
    rw [h] at hvmem
    exact List.not_mem_nil v hvmem
  obtain ⟨cv, hcv, hcvmem, hall⟩ := latestVersion_spec s.versions eid hne
  rw [rollback_event_success_eq s caller eid vid e v cv hfe howner hfv hcv]
  refine ⟨_, ⟨eid, v.fields, caller, cv.version_number + 1⟩, rfl, rfl, rfl, ?_, ?_, ?_⟩
  · show latestVersion (s.versions ++ [⟨eid, v.fields, caller, cv.version_number + 1⟩]) eid = _
    rw [latestVersion_append_of_eq _ _ _ rfl, hcv]
    simp [maxStep]
  · show get_event_version _ caller eid (cv.version_number + 1) = _
    unfold get_event_version
    have h1 : findEvent
        { s with
          events := s.events.map (fun ev =>
            if ev.id == eid then { ev with fields := v.fields } else ev),
          versions := s.versions ++
            [⟨eid, v.fields, caller, cv.version_number + 1⟩] } eid =
        some { e with fields := v.fields } :=
      findEvent_mapUpdated s eid v.fields e hfe
    rw [h1]
    have h2 : findVersion
        (s.versions ++ [⟨eid, v.fields, caller, cv.version_number + 1⟩]) eid
        (cv.version_number + 1) =
        some ⟨eid, v.fields, caller, cv.version_number + 1⟩ := by
      unfold findVersion
      rw [List.find?_append]
      have h3 : s.versions.find? (fun w =>
          w.event_id == eid && w.version_number == cv.version_number + 1) = none := by
        rw [List.find?_eq_none]
        intro w hw
        simp only [Bool.and_eq_true, beq_iff_eq, not_and]
        intro hweid
        have hwmem : w ∈ versionsFor s.versions eid := by
          unfold versionsFor
          rw [List.mem_filter]
          exact ⟨hw, by simp [hweid]⟩
        have := hall w hwmem
        omega
      rw [h3]
      simp
    simp [h2, howner]
  · intro w hw
    have := hall w hw
    show w.version_number < cv.version_number + 1
    omega

/-- Concrete editable fields used by the evaluation theorems. -/
def sampleFields : EventFields :=
  ⟨"Standup", "daily sync", 900, 930, none, false, none, none⟩

/-- A second value of the editable fields, differing in the title. -/
def sampleFields2 : EventFields :=
  ⟨"Daily Standup", "daily sync", 900, 930, none, false, none, none⟩

/-- A small concrete store: two users, one event owned by user 1 with two
recorded versions, no grants. -/
def sampleDB : DB :=
  ⟨[⟨1, "alice"⟩, ⟨2, "bob"⟩],
   [⟨1, sampleFields2, 1⟩],
   [⟨1, sampleFields, 1, 1⟩, ⟨1, sampleFields2, 1, 2⟩],
   [], 2⟩

/-- Claim C3 (failure evaluation): create_event commits the Event row in a
first transaction and the version-1 snapshot in a second one; when the
snapshot write fails, the handler leaves the event observably persisted with
an empty version ledger, so the pair of writes is not atomic. -/
theorem claim_C3_create_not_atomic :
    (create_event initDB 1 sampleFields true).1 = .error .serverError ∧
    (create_event initDB 1 sampleFields true).2.events = [⟨1, sampleFields, 1⟩] ∧
    versionsFor (create_event initDB 1 sampleFields true).2.versions 1 = [] :=
  ⟨rfl, rfl, rfl⟩

/-- Claim C2 witness: the rollback round-trip at the concrete store (event 1,
rolled back to version 1). -/
theorem claim_C2_rollback_roundtrip_witness :
    ∃ s2 v2, rollback_event sampleDB 1 1 1 = (.ok ⟨1, sampleFields, 1⟩, s2) ∧
      s2.versions = sampleDB.versions ++ [v2] ∧
      v2.fields = sampleFields ∧
      latestVersion s2.versions 1 = some v2 ∧
      get_event_version s2 1 1 v2.version_number = .ok v2 ∧
      ∀ w ∈ versionsFor sampleDB.versions 1, w.version_number < v2.version_number :=
  claim_C2_rollback_roundtrip sampleDB 1 1 1 ⟨1, sampleFields2, 1⟩
    ⟨1, sampleFields, 1, 1⟩ rfl rfl rfl

/-- Claim C4: every event-scoped operation resolves the event first and fails
NotFound when it is absent; when the event exists and the caller is not its
owner, every operation fails Forbidden; on both error paths the mutating
operations return the store unchanged (the read-only operations never write). -/
theorem claim_C4_auth_guard (s : DB) (caller eid vid vid2 now : Nat)
    (u : EventUpdate) (ps : List PermissionCreate) :
    (findEvent s eid = none →
      get_event s caller eid = .error .notFound ∧
      update_event s caller eid u = (.error .notFound, s) ∧
      delete_event s caller eid = (.error .notFound, s) ∧
      share_event s caller eid ps now = (.error .notFound, s) ∧
      get_event_version s caller eid vid = .error .notFound ∧
      rollback_event s caller eid vid = (.error .notFound, s) ∧
      get_event_changelog s caller eid = .error .notFound ∧
      get_event_diff s caller eid vid vid2 = .error .notFound) ∧
    (∀ e, findEvent s eid = some e → e.owner_id ≠ caller →
      get_event s caller eid = .error .forbidden ∧
      update_event s caller eid u = (.error .forbidden, s) ∧
      delete_event s caller eid = (.error .forbidden, s) ∧
      share_event s caller eid ps now = (.error .forbidden, s) ∧
      get_event_version s caller eid vid = .error .forbidden ∧
      rollback_event s caller eid vid = (.error .forbidden, s) ∧
      get_event_changelog s caller eid = .error .forbidden ∧
      get_event_diff s caller eid vid vid2 = .error .forbidden) := by
  constructor
  · intro h
    refine ⟨?_, ?_, ?_, ?_, ?_, ?_, ?_, ?_⟩ <;>
      simp [get_event, update_event, delete_event, share_event,
        get_event_version, rollback_event, get_event_changelog,
        get_event_diff, h]
  · intro e he hno
    refine ⟨?_, ?_, ?_, ?_, ?_, ?_, ?_, ?_⟩ <;>
      simp [get_event, update_event, delete_event, share_event,
        get_event_version, rollback_event, get_event_changelog,
        get_event_diff, he, hno]

/-- Claim C4 witness: the guard at the concrete store, for an absent event id
and for a non-owner caller. -/
theorem claim_C4_auth_guard_witness :
    (get_event sampleDB 2 9 = .error .notFound ∧
      update_event sampleDB 2 9 {} = (.error .notFound, sampleDB) ∧
      delete_event sampleDB 2 9 = (.error .notFound, sampleDB) ∧
      share_event sampleDB 2 9 [] 5 = (.error .notFound, sampleDB) ∧
      get_event_version sampleDB 2 9 1 = .error .notFound ∧
      rollback_event sampleDB 2 9 1 = (.error .notFound, sampleDB) ∧
      get_event_changelog sampleDB 2 9 = .error .notFound ∧
      get_event_diff sampleDB 2 9 1 2 = .error .notFound) ∧
    (get_event sampleDB 2 1 = .error .forbidden ∧
      update_event sampleDB 2 1 {} = (.error .forbidden, sampleDB) ∧
      delete_event sampleDB 2 1 = (.error .forbidden, sampleDB) ∧
      share_event sampleDB 2 1 [] 5 = (.error .forbidden, sampleDB) ∧
      get_event_version sampleDB 2 1 1 = .error .forbidden ∧
      rollback_event sampleDB 2 1 1 = (.error .forbidden, sampleDB) ∧
      get_event_changelog sampleDB 2 1 = .error .forbidden ∧
      get_event_diff sampleDB 2 1 1 2 = .error .forbidden) :=
  ⟨(claim_C4_auth_guard sampleDB 2 9 1 2 5 {} []).1 rfl,
   (claim_C4_auth_guard sampleDB 2 1 1 2 5 {} []).2 ⟨1, sampleFields2, 1⟩ rfl
     (by decide)⟩

/-- Claim C5: an authorized partial update applies exactly the supplied fields
to the stored event (each unset field keeps its current value), and records
one new snapshot holding the event's full resulting field set, with the
caller as modifier. -/
theorem claim_C5_partial_update (s : DB) (caller eid : Nat) (u : EventUpdate)
    (e : Event) (hfe : findEvent s eid = some e)
    (howner : e.owner_id = caller) :
    ∃ s2 v2, update_event s caller eid u = (.ok { e with fields := v2.fields }, s2) ∧
      s2.versions = s.versions ++ [v2] ∧
      v2.event_id = eid ∧
      v2.modified_by_id = caller ∧
      findEvent s2 eid = some { e with fields := v2.fields } ∧
      v2.fields.title = u.title.getD e.fields.title ∧
      v2.fields.description = u.description.getD e.fields.description ∧
      v2.fields.start_time = u.start_time.getD e.fields.start_time ∧
      v2.fields.end_time = u.end_time.getD e.fields.end_time ∧
      v2.fields.location = u.location.getD e.fields.location ∧
      v2.fields.is_recurring = u.is_recurring.getD e.fields.is_recurring ∧
      v2.fields.recurrence_pattern =
        u.recurrence_pattern.getD e.fields.recurrence_pattern ∧
      v2.fields.recurrence_end_date =
        u.recurrence_end_date.getD e.fields.recurrence_end_date := by
  rw [update_event_success_eq s caller eid u e hfe howner]
  refine ⟨_, ⟨eid, applyUpdate e.fields u, caller,
    (match latestVersion s.versions eid with
      | some cv => cv.version_number + 1
      | none => 1)⟩, rfl, rfl, rfl, rfl, ?_, rfl, rfl, rfl, rfl, rfl, rfl, rfl, rfl⟩
  exact findEvent_mapUpdated s eid (applyUpdate e.fields u) e hfe

/-- Claim C5 witness: a partial update changing only the title at the concrete
store. -/
theorem claim_C5_partial_update_witness :
    ∃ s2 v2, update_event sampleDB 1 1 { title := some "Retro" } =
        (.ok { (⟨1, sampleFields2, 1⟩ : Event) with fields := v2.fields }, s2) ∧
      s2.versions = sampleDB.versions ++ [v2] ∧
      v2.event_id = 1 ∧
      v2.modified_by_id = 1 ∧
      findEvent s2 1 = some { (⟨1, sampleFields2, 1⟩ : Event) with fields := v2.fields } ∧
      v2.fields.title = (some "Retro").getD sampleFields2.title ∧
      v2.fields.description = Option.getD none sampleFields2.description ∧
      v2.fields.start_time = Option.getD none sampleFields2.start_time ∧
      v2.fields.end_time = Option.getD none sampleFields2.end_time ∧
      v2.fields.location = Option.getD none sampleFields2.location ∧
      v2.fields.is_recurring = Option.getD none sampleFields2.is_recurring ∧
      v2.fields.recurrence_pattern = Option.getD none sampleFields2.recurrence_pattern ∧
      v2.fields.recurrence_end_date = Option.getD none sampleFields2.recurrence_end_date :=
  claim_C5_partial_update sampleDB 1 1 { title := some "Retro" }
    ⟨1, sampleFields2, 1⟩ rfl rfl

/-- Claim C10: from any reachable store, an authorized update whose partial
field set is empty leaves every event row unchanged, yet still appends one new
snapshot, numbered one above the current maximum, whose field values equal the
previous latest snapshot's values. -/
theorem claim_C10_empty_update (ops : List ApiOp) (s : DB) (caller eid : Nat)
    (e : Event) (hreach : s = applyOps ops initDB)
    (hfe : findEvent s eid = some e) (howner : e.owner_id = caller) :
    ∃ s2 v2 cv, update_event s caller eid {} = (.ok e, s2) ∧
      latestVersion s.versions eid = some cv ∧
      s2.events = s.events ∧
      s2.versions = s.versions ++ [v2] ∧
      v2.version_number = cv.version_number + 1 ∧
      v2.fields = cv.fields := by
  have hinv : DBInv s := by
    rw [hreach]
    exact (inv_applyOps ops initDB inv_initDB).1
  obtain ⟨hemem, heid⟩ := findEvent_some s eid e hfe
  obtain ⟨cv, hcv, hcvf⟩ := hinv.latest_fields e hemem
  rw [heid] at hcv
  rw [update_event_success_eq s caller eid {} e hfe howner]
  refine ⟨_, _, cv, rfl, hcv, ?_, rfl, ?_, ?_⟩
  · show s.events.map (fun ev =>
        if ev.id == eid then { ev with fields := applyUpdate e.fields {} } else ev) =
      s.events
    have hpt : ∀ ev ∈ s.events,
        (if ev.id == eid then { ev with fields := applyUpdate e.fields {} } else ev) =
          ev := by
      intro ev hev
      by_cases h : ev.id = eid
      · have hsame : ev = e :=
          List.inj_on_of_nodup_map hinv.events_nodup hev hemem (by rw [h, heid])
        subst hsame
        rw [if_pos (beq_iff_eq.mpr h)]
        rfl
      · rw [if_neg (by simp [h])]
    rw [List.map_congr_left hpt]
    exact List.map_id s.events
  · show (match latestVersion s.versions eid with
      | some cv2 => cv2.version_number + 1
      | none => 1) = cv.version_number + 1
    rw [hcv]
  · show applyUpdate e.fields {} = cv.fields
    rw [show applyUpdate e.fields {} = e.fields from rfl, hcvf]

/-- Claim C10 witness: an empty update right after a create. -/
theorem claim_C10_empty_update_witness :
    ∃ s2 v2 cv,
      update_event (applyOps [ApiOp.create 1 sampleFields] initDB) 1 1 {} =
        (.ok ⟨1, sampleFields, 1⟩, s2) ∧
      latestVersion (applyOps [ApiOp.create 1 sampleFields] initDB).versions 1 =
        some cv ∧
      s2.events = (applyOps [ApiOp.create 1 sampleFields] initDB).events ∧
      s2.versions =
        (applyOps [ApiOp.create 1 sampleFields] initDB).versions ++ [v2] ∧
      v2.version_number = cv.version_number + 1 ∧
      v2.fields = cv.fields :=
  claim_C10_empty_update [ApiOp.create 1 sampleFields] _ 1 1
    ⟨1, sampleFields, 1⟩ rfl rfl rfl

/-! ### The diff endpoint -/

/-- The body of one diff-loop iteration, as an optional emitted entry. -/
def diffEntryFor (f1 f2 : EventFields) (f : FieldName) : Option DiffEntry :=
  if fieldVal f1 f ≠ fieldVal f2 f then some ⟨f, fieldVal f1 f, fieldVal f2 f⟩
  else none

theorem foldl_append_filterMap {α β : Type} (g : α → Option β) (l : List α)
    (acc : List β) :
    l.foldl (fun acc2 f => acc2 ++ (g f).toList) acc = acc ++ l.filterMap g := by
  induction l generalizing acc with
  | nil => simp
  | cons x xs ih =>
    rw [List.foldl_cons, ih]
    cases hg : g x <;> simp [List.filterMap_cons, hg]

theorem diffList_eq_filterMap (f1 f2 : EventFields) :
    diffList f1 f2 = trackedFields.filterMap (diffEntryFor f1 f2) := by
  unfold diffList
  have hstep : (fun (acc : List DiffEntry) (f : FieldName) =>
      if fieldVal f1 f ≠ fieldVal f2 f then
        acc ++ [⟨f, fieldVal f1 f, fieldVal f2 f⟩]
      else acc) =
      (fun acc f => acc ++ (diffEntryFor f1 f2 f).toList) := by
    funext acc f
    unfold diffEntryFor
    by_cases h : fieldVal f1 f ≠ fieldVal f2 f <;> simp [h]
  rw [hstep, foldl_append_filterMap]
  simp

theorem filterMap_guard_eq_filter {α : Type} (p : α → Prop) [DecidablePred p]
    (l : List α) :
    l.filterMap (fun a => if p a then some a else none) =
      l.filter (fun a => p a) := by
  induction l with
  | nil => rfl
  | cons x xs ih =>
    by_cases h : p x <;> simp [List.filterMap_cons, List.filter_cons, h, ih]

/-- Claim C7: diff fetches both snapshots and fails NotFound when either is
absent; otherwise it compares the eight tracked fields by value equality and
emits a field, old-value, new-value entry exactly for the unequal ones, in the
fixed source order of the field list (old from the first-named version, new
from the second). -/
theorem claim_C7_diff_fields (s : DB) (caller eid vid1 vid2 : Nat) (e : Event)
    (hfe : findEvent s eid = some e) (howner : e.owner_id = caller) :
    ((findVersion s.versions eid vid1 = none ∨
        findVersion s.versions eid vid2 = none) →
      get_event_diff s caller eid vid1 vid2 = .error .notFound) ∧
    (∀ v1 v2, findVersion s.versions eid vid1 = some v1 →
      findVersion s.versions eid vid2 = some v2 →
      ∃ l, get_event_diff s caller eid vid1 vid2 = .ok ⟨vid1, vid2, l⟩ ∧
        l.map DiffEntry.field = trackedFields.filter
          (fun f => fieldVal v1.fields f ≠ fieldVal v2.fields f) ∧
        ∀ d ∈ l, d.old_value = fieldVal v1.fields d.field ∧
          d.new_value = fieldVal v2.fields d.field) := by
  constructor
  · intro h
    rcases h with h | h
    · simp [get_event_diff, hfe, howner, h]
    · cases hf1 : findVersion s.versions eid vid1 <;>
        simp [get_event_diff, hfe, howner, h, hf1]
  · intro v1 v2 h1 h2
    refine ⟨diffList v1.fields v2.fields, by simp [get_event_diff, hfe, howner, h1, h2],
      ?_, ?_⟩
    · rw [diffList_eq_filterMap, List.map_filterMap]
      have hpt : ∀ f ∈ trackedFields,
          (diffEntryFor v1.fields v2.fields f).map DiffEntry.field =
            (fun a => if fieldVal v1.fields a ≠ fieldVal v2.fields a then some a
              else none) f := by
        intro f hf
        unfold diffEntryFor
        by_cases h : fieldVal v1.fields f ≠ fieldVal v2.fields f <;> simp [h]
      rw [List.filterMap_congr hpt, filterMap_guard_eq_filter]
    · intro d hd
      rw [diffList_eq_filterMap] at hd
      obtain ⟨f, hf, hg⟩ := List.mem_filterMap.mp hd
      unfold diffEntryFor at hg
      by_cases h : fieldVal v1.fields f ≠ fieldVal v2.fields f
      · rw [if_pos h] at hg
        obtain rfl := Option.some.inj hg
        exact ⟨rfl, rfl⟩
      · rw [if_neg h] at hg
        exact Option.noConfusion hg

/-- Claim C7 witness: the diff contract at the concrete store, at a missing
version id and at the pair of recorded versions. -/
theorem claim_C7_diff_fields_witness :
    get_event_diff sampleDB 1 1 9 2 = .error .notFound ∧
    ∃ l, get_event_diff sampleDB 1 1 1 2 = .ok ⟨1, 2, l⟩ ∧
      l.map DiffEntry.field = trackedFields.filter
        (fun f => fieldVal sampleFields f ≠ fieldVal sampleFields2 f) ∧
      ∀ d ∈ l, d.old_value = fieldVal sampleFields d.field ∧
        d.new_value = fieldVal sampleFields2 d.field :=
  ⟨(claim_C7_diff_fields sampleDB 1 1 9 2 ⟨1, sampleFields2, 1⟩ rfl rfl).1
      (Or.inl rfl),
   (claim_C7_diff_fields sampleDB 1 1 1 2 ⟨1, sampleFields2, 1⟩ rfl rfl).2
      ⟨1, sampleFields, 1, 1⟩ ⟨1, sampleFields2, 1, 2⟩ rfl rfl⟩

/-- Swapping the direction labels of one diff entry. -/
def swapEntry (d : DiffEntry) : DiffEntry := ⟨d.field, d.new_value, d.old_value⟩

theorem diffList_swap (f1 f2 : EventFields) :
    diffList f2 f1 = (diffList f1 f2).map swapEntry := by
  rw [diffList_eq_filterMap, diffList_eq_filterMap, List.map_filterMap]
  apply List.filterMap_congr
  intro f hf
  unfold diffEntryFor
  by_cases h : fieldVal f1 f = fieldVal f2 f
  · simp [h]
  · simp [h, Ne.symm h, swapEntry]

theorem diffList_self (f0 : EventFields) : diffList f0 f0 = [] := by
  rw [diffList_eq_filterMap]
  rw [List.filterMap_eq_nil_iff]
  intro f hf
  simp [diffEntryFor]

/-- Claim C8: for two existing versions, diff in one direction returns the
field-by-field differences, diff in the other direction returns exactly the
same entries with old and new values swapped, and diff of a version against
itself is empty. -/
theorem claim_C8_diff_symmetry (s : DB) (caller eid a b : Nat) (e : Event)
    (va vb : EventVersion) (hfe : findEvent s eid = some e)
    (howner : e.owner_id = caller)
    (hva : findVersion s.versions eid a = some va)
    (hvb : findVersion s.versions eid b = some vb) :
    get_event_diff s caller eid a b = .ok ⟨a, b, diffList va.fields vb.fields⟩ ∧
    get_event_diff s caller eid b a =
      .ok ⟨b, a, (diffList va.fields vb.fields).map swapEntry⟩ ∧
    get_event_diff s caller eid a a = .ok ⟨a, a, []⟩ := by
  refine ⟨?_, ?_, ?_⟩
  · simp [get_event_diff, hfe, howner, hva, hvb]
  · rw [← diffList_swap]
    simp [get_event_diff, hfe, howner, hva, hvb]
  · rw [show ([] : List DiffEntry) = diffList va.fields va.fields from
      (diffList_self va.fields).symm]
    simp [get_event_diff, hfe, howner, hva]

/-- Claim C8 witness: the symmetry relation at the concrete store's two
recorded versions. -/
theorem claim_C8_diff_symmetry_witness :
    get_event_diff sampleDB 1 1 1 2 =
      .ok ⟨1, 2, diffList sampleFields sampleFields2⟩ ∧
    get_event_diff sampleDB 1 1 2 1 =
      .ok ⟨2, 1, (diffList sampleFields sampleFields2).map swapEntry⟩ ∧
    get_event_diff sampleDB 1 1 1 1 = .ok ⟨1, 1, []⟩ :=
  claim_C8_diff_symmetry sampleDB 1 1 1 2 ⟨1, sampleFields2, 1⟩
    ⟨1, sampleFields, 1, 1⟩ ⟨1, sampleFields2, 1, 2⟩ rfl rfl rfl rfl

/-! ### The share endpoint -/

theorem applyGrants_invalid (eid now : Nat) (users : List User)
    (ps : List PermissionCreate) :
    ∀ perms, (∃ p ∈ ps, ∀ u ∈ users, u.id ≠ p.user_id) →
      applyGrants eid now users ps perms = .error .notFound := by
  induction ps with
  | nil =>
    intro perms h
    obtain ⟨p, hp, -⟩ := h
    exact absurd hp (List.not_mem_nil p)
  | cons q rest ih =>
    intro perms h
    obtain ⟨p, hp, hbad⟩ := h
    rcases List.mem_cons.mp hp with rfl | hm
    · have hnone : users.find? (fun x => x.id == p.user_id) = none := by
        rw [List.find?_eq_none]
        intro x hx
        simp [hbad x hx]
      unfold applyGrants
      rw [hnone]
      rfl
    · cases hfind : users.find? (fun x => x.id == q.user_id) with
      | none =>
        unfold applyGrants
        rw [hfind]
        rfl
      | some x =>
        unfold applyGrants
        rw [hfind]
        exact ih (grantStep eid now perms q) ⟨p, hm, hbad⟩

/-- Claim C6: a batch share by the owner that names any non-existent grantee
user fails NotFound and leaves the store — in particular the event's
permission grants — unchanged: no grant of the batch is applied. -/
theorem claim_C6_share_all_or_nothing (s : DB) (caller eid now : Nat)
    (ps : List PermissionCreate) (e : Event)
    (hfe : findEvent s eid = some e) (howner : e.owner_id = caller)
    (hbad : ∃ p ∈ ps, ∀ u ∈ s.users, u.id ≠ p.user_id) :
    share_event s caller eid ps now = (.error .notFound, s) := by
  have h1 := applyGrants_invalid eid now s.users ps s.perms hbad
  unfold share_event
  rw [hfe]
  simp [howner, h1]

/-- Claim C6 witness: sharing with one valid and one unknown grantee at the
concrete store fails NotFound and changes nothing. -/
theorem claim_C6_share_all_or_nothing_witness :
    share_event sampleDB 1 1 [⟨2, Role.editor⟩, ⟨9, Role.viewer⟩] 5 =
      (.error .notFound, sampleDB) :=
  claim_C6_share_all_or_nothing sampleDB 1 1 5
    [⟨2, Role.editor⟩, ⟨9, Role.viewer⟩] ⟨1, sampleFields2, 1⟩ rfl rfl
    ⟨⟨9, Role.viewer⟩, by simp, by decide⟩

theorem grantStep_filter (eid now uid : Nat) (r : Role) (perms : List PermGrant)
    (hone : (perms.filter
      (fun g => g.event_id == eid && g.user_id == uid)).length ≤ 1) :
    ∃ t, (grantStep eid now perms ⟨uid, r⟩).filter
        (fun g => g.event_id == eid && g.user_id == uid) = [⟨eid, uid, r, t⟩] := by
  unfold grantStep
  cases hany : perms.any (fun g => g.event_id == eid && g.user_id == uid) with
  | false =>
    refine ⟨now, ?_⟩
    rw [if_neg (by simp [hany])]
    have hnil : perms.filter (fun g => g.event_id == eid && g.user_id == uid) = [] := by
      rw [List.filter_eq_nil_iff]
      intro g hg
      intro hk
      have : perms.any (fun g => g.event_id == eid && g.user_id == uid) = true :=
        List.any_eq_true.mpr ⟨g, hg, hk⟩
      rw [hany] at this
      exact Bool.noConfusion this
    rw [List.filter_append, hnil]
    simp
  | true =>
    rw [if_pos (by simp [hany])]
    have hpres : ((fun (g : PermGrant) => g.event_id == eid && g.user_id == uid) ∘
        (fun g => if g.event_id == eid && g.user_id == uid then
          { g with role := r } else g)) =
        (fun g => g.event_id == eid && g.user_id == uid) := by
      funext g
      by_cases hk : (g.event_id == eid && g.user_id == uid) = true
      · simp only [Function.comp_apply, if_pos hk]
      · simp only [Function.comp_apply, if_neg hk]
    rw [List.filter_map, hpres]
    obtain ⟨g0, hg0, hk0⟩ := List.any_eq_true.mp hany
    have hmem0 : g0 ∈ perms.filter (fun g => g.event_id == eid && g.user_id == uid) :=
      List.mem_filter.mpr ⟨hg0, hk0⟩
    cases hflt : perms.filter (fun g => g.event_id == eid && g.user_id == uid) with
    | nil =>
      rw [hflt] at hmem0
      exact absurd hmem0 (List.not_mem_nil g0)
    | cons h0 tl =>
      rw [hflt] at hone
      have htl : tl = [] := by
        simp only [List.length_cons] at hone
        exact List.eq_nil_of_length_eq_zero (by omega)
      subst htl
      have hk1 : (h0.event_id == eid && h0.user_id == uid) = true := by
        have := List.mem_filter.mp (hflt ▸ List.mem_cons_self h0 [])
        exact this.2
      simp only [Bool.and_eq_true, beq_iff_eq] at hk1
      refine ⟨h0.created_at, ?_⟩
      rw [List.map_cons, List.map_nil, if_pos (by simp [hk1.1, hk1.2])]
      rw [hk1.1, hk1.2]

theorem share_event_single_eq (s : DB) (caller eid uid now : Nat) (r : Role)
    (e : Event) (hfe : findEvent s eid = some e) (howner : e.owner_id = caller)
    (hfind : (s.users.find? (fun x => x.id == uid)).isSome = true) :
    share_event s caller eid [⟨uid, r⟩] now =
      (.ok ((grantStep eid now s.perms ⟨uid, r⟩).filter
          (fun g => g.event_id == eid)),
        { s with perms := grantStep eid now s.perms ⟨uid, r⟩ }) := by
  unfold share_event
  rw [hfe]
  simp [howner, applyGrants, hfind]

/-- Claim C9: granting a permission twice for the same (event, user) pair,
with roles r1 then r2, leaves exactly one grant row for that pair and its role
is r2: the re-grant replaces the existing grant's role and never inserts a
second row. -/
theorem claim_C9_regrant_single_row (s : DB) (caller eid uid now1 now2 : Nat)
    (r1 r2 : Role) (e : Event) (u : User)
    (hfe : findEvent s eid = some e) (howner : e.owner_id = caller)
    (hu : u ∈ s.users) (huid : u.id = uid)
    (hone : (s.perms.filter
      (fun g => g.event_id == eid && g.user_id == uid)).length ≤ 1) :
    ∃ s1 s2 res1 res2 t,
      share_event s caller eid [⟨uid, r1⟩] now1 = (.ok res1, s1) ∧
      share_event s1 caller eid [⟨uid, r2⟩] now2 = (.ok res2, s2) ∧
      s2.perms.filter (fun g => g.event_id == eid && g.user_id == uid) =
        [⟨eid, uid, r2, t⟩] := by
  have hfind : (s.users.find? (fun x => x.id == uid)).isSome = true :=
    List.find?_isSome.mpr ⟨u, hu, by simp [huid]⟩
  have h1 := share_event_single_eq s caller eid uid now1 r1 e hfe howner hfind
  obtain ⟨t1, ht1⟩ := grantStep_filter eid now1 uid r1 s.perms hone
  have hone1 : (((grantStep eid now1 s.perms ⟨uid, r1⟩)).filter
      (fun g => g.event_id == eid && g.user_id == uid)).length ≤ 1 := by
    rw [ht1]
    simp
  have h2 := share_event_single_eq { s with perms := grantStep eid now1 s.perms ⟨uid, r1⟩ }
    caller eid uid now2 r2 e hfe howner hfind
  obtain ⟨t2, ht2⟩ := grantStep_filter eid now2 uid r2
    (grantStep eid now1 s.perms ⟨uid, r1⟩) hone1
  exact ⟨_, _, _, _, t2, h1, h2, ht2⟩

/-- Claim C9 witness: granting editor then viewer to user 2 at the concrete
store leaves exactly one viewer grant. -/
theorem claim_C9_regrant_single_row_witness :
    ∃ s1 s2 res1 res2 t,
      share_event sampleDB 1 1 [⟨2, Role.editor⟩] 5 = (.ok res1, s1) ∧
      share_event s1 1 1 [⟨2, Role.viewer⟩] 6 = (.ok res2, s2) ∧
      s2.perms.filter (fun g => g.event_id == 1 && g.user_id == 2) =
        [⟨1, 2, Role.viewer, t⟩] :=
  claim_C9_regrant_single_row sampleDB 1 1 2 5 6 Role.editor Role.viewer
    ⟨1, sampleFields2, 1⟩ ⟨2, "bob"⟩ rfl rfl (by simp [sampleDB]) rfl (by simp [sampleDB])
